import Mathlib

/-
Verification of the duckup migration engine against its specification.

The engine's core (migration discovery, version store, transactional
upgrade/downgrade executors) is shallowly embedded below.  Database state
is abstracted as a user-state type `U` paired with the persisted version
integer; migration capabilities are fallible state transformers.
-/

namespace Duckup

/-- Modelled from the spec: a Migration is one versioned, named unit with
forward (`upgrade`) and reverse (`downgrade`) capabilities, each a fallible
action on the database. The `apply`/`revert` fields model the script's
`upgrade(conn)` / `downgrade(conn)` entry points. -/
structure Migration (U E : Type) where
  version : Nat
  name : String
  apply : U → Except E U
  revert : U → Except E U

/-- Modelled from the spec: the database state visible to the engine, split
into the user schema/data part `U` and the persisted version integer
(absence of the version table is identified with version 0). -/
structure Db (U : Type) where
  user : U
  version : Nat
deriving DecidableEq

/-- Modelled from the spec: errors an executor call can surface — a
`VersionError` raised during planning, or an underlying execution error of
type `E` re-raised verbatim from a migration step. -/
inductive MigErr (E : Type) where
  | versionError
  | execError (e : E)
deriving DecidableEq

/-- Result of one Upgrade/Downgrade call: the final database state, the
log messages emitted, and the error surfaced to the caller (if any). -/
structure RunResult (U E : Type) where
  db : Db U
  log : List String
  err : Option (MigErr E)
deriving DecidableEq

def noUpgradeNeededMsg : String :=
  "Database already at target version, no upgrade needed"

def noDowngradeNeededMsg : String :=
  "Database already at target version, no downgrade needed"

def noApplyMsg : String := "No migrations to apply"

def noRevertMsg : String := "No migrations to downgrade"

def noTargetMsg : String := "No target version specified, skipping downgrade"

def applyErrorMsg {U E : Type} (m : Migration U E) : String :=
  "Error executing migration " ++ m.name

def revertErrorMsg {U E : Type} (m : Migration U E) : String :=
  "Error reverting migration " ++ m.name

/-- The maximum version present in a migration set (0 if the set is empty). -/
def maxVersion {U E : Type} (migs : List (Migration U E)) : Nat :=
  migs.foldl (fun acc m => max acc m.version) 0

/-- Modelled from the spec: the largest version in the full loaded
migration set that is strictly less than `v`, or 0 if no such migration
exists — the value persisted after reverting the migration at version `v`. -/
def prevVersion {U E : Type} (migs : List (Migration U E)) (v : Nat) : Nat :=
  (migs.filter (fun m => decide (m.version < v))).foldl
    (fun acc m => max acc m.version) 0

/-- Migrations with `current < version ≤ target`, in load (ascending) order. -/
def toApplyList {U E : Type} (current target : Nat)
    (migs : List (Migration U E)) : List (Migration U E) :=
  migs.filter (fun m => decide (current < m.version ∧ m.version ≤ target))

/-- Migrations with `target < version ≤ current`, in descending order
(most recently applied first, given an ascending input). -/
def toRevertList {U E : Type} (current target : Nat)
    (migs : List (Migration U E)) : List (Migration U E) :=
  (migs.filter (fun m => decide (target < m.version ∧ m.version ≤ current))).reverse

/-- Modelled from the spec: run the upgrade batch. Each step is one
transaction scope: invoke `apply`, set the stored version to the step's
version, commit. On a failure the scope rolls back (the pre-step state is
kept unchanged), the failing migration and its original error are
returned, and later steps are never attempted. -/
def applyBatch {U E : Type} :
    Db U → List (Migration U E) → Db U × Option (Migration U E × E)
  | d, [] => (d, none)
  | d, m :: rest =>
    match m.apply d.user with
    | .ok u => applyBatch ⟨u, m.version⟩ rest
    | .error e => (d, some (m, e))

/-- Modelled from the spec: run the downgrade batch. Each step is one
transaction scope: invoke `revert`, set the stored version to the largest
known version strictly below the reverted one (0 if none), commit. On a
failure the scope rolls back, the failing migration and its original error
are returned, and later steps are never attempted. -/
def revertBatch {U E : Type} (allMigs : List (Migration U E)) :
    Db U → List (Migration U E) → Db U × Option (Migration U E × E)
  | d, [] => (d, none)
  | d, m :: rest =>
    match m.revert d.user with
    | .ok u => revertBatch allMigs ⟨u, prevVersion allMigs m.version⟩ rest
    | .error e => (d, some (m, e))

/-- Modelled from the spec: steps 5–7 of the Upgrade state machine, after
the effective target has been resolved. -/
def runUpgrade {U E : Type} (d : Db U) (migs : List (Migration U E))
    (target : Nat) : RunResult U E :=
  match toApplyList d.version target migs with
  | [] => ⟨d, [noApplyMsg], none⟩
  | m :: rest =>
    match applyBatch d (m :: rest) with
    | (d1, none) => ⟨d1, [], none⟩
    | (d1, some (mf, e)) => ⟨d1, [applyErrorMsg mf], some (.execError e)⟩

/-- Modelled from the spec: the Upgrade state machine (§4.4). An explicit
target below the current version is a `VersionError`; a target equal to the
current version (including a defaulted target) is a logged no-op; otherwise
the batch of migrations in `(current, target]` runs in ascending order. -/
def upgradeModel {U E : Type} (d : Db U) (migs : List (Migration U E))
    (targetVersion : Option Nat) : RunResult U E :=
  match targetVersion with
  | some t =>
    if t < d.version then ⟨d, [], some .versionError⟩
    else if t = d.version then ⟨d, [noUpgradeNeededMsg], none⟩
    else runUpgrade d migs t
  | none =>
    if maxVersion migs = d.version then ⟨d, [noUpgradeNeededMsg], none⟩
    else runUpgrade d migs (maxVersion migs)

/-- Modelled from the spec: steps 5–7 of the Downgrade state machine. -/
def runDowngrade {U E : Type} (d : Db U) (migs : List (Migration U E))
    (target : Nat) : RunResult U E :=
  match toRevertList d.version target migs with
  | [] => ⟨d, [noRevertMsg], none⟩
  | m :: rest =>
    match revertBatch migs d (m :: rest) with
    | (d1, none) => ⟨d1, [], none⟩
    | (d1, some (mf, e)) => ⟨d1, [revertErrorMsg mf], some (.execError e)⟩

/-- Modelled from the spec: the Downgrade state machine (§4.5). No target
is an explicit logged no-op; a target above the current version is a
`VersionError`; a target equal to the current version is a logged no-op;
otherwise the batch of migrations in `(target, current]` runs in
descending order. -/
def downgradeModel {U E : Type} (d : Db U) (migs : List (Migration U E))
    (targetVersion : Option Nat) : RunResult U E :=
  match targetVersion with
  | none => ⟨d, [noTargetMsg], none⟩
  | some t =>
    if d.version < t then ⟨d, [], some .versionError⟩
    else if t = d.version then ⟨d, [noDowngradeNeededMsg], none⟩
    else runDowngrade d migs t

/-- Running an upgrade batch over an append: the second part runs only if
the first part finished without error. -/
theorem applyBatch_append {U E : Type} (l1 l2 : List (Migration U E)) :
    ∀ d : Db U, applyBatch d (l1 ++ l2) =
      match applyBatch d l1 with
      | (d1, none) => applyBatch d1 l2
      | (d1, some me) => (d1, some me) := by
  induction l1 with
  | nil => intro d; simp [applyBatch]
  | cons m rest ih =>
    intro d
    simp only [List.cons_append, applyBatch]
    cases hm : m.apply d.user with
    | ok u => exact ih ⟨u, m.version⟩
    | error e => rfl

/-- Running a downgrade batch over an append: the second part runs only if
the first part finished without error. -/
theorem revertBatch_append {U E : Type} (allMigs l1 l2 : List (Migration U E)) :
    ∀ d : Db U, revertBatch allMigs d (l1 ++ l2) =
      match revertBatch allMigs d l1 with
      | (d1, none) => revertBatch allMigs d1 l2
      | (d1, some me) => (d1, some me) := by
  induction l1 with
  | nil => intro d; simp [revertBatch]
  | cons m rest ih =>
    intro d
    simp only [List.cons_append, revertBatch]
    cases hm : m.revert d.user with
    | ok u => exact ih ⟨u, prevVersion allMigs m.version⟩
    | error e => rfl

/-- A failing step freezes the batch: the state before the attempt is kept,
the step's own original error is returned, later steps never run. -/
theorem applyBatch_fail {U E : Type} (pre rest : List (Migration U E))
    (m : Migration U E) (d dPre : Db U) (e : E)
    (hpre : applyBatch d pre = (dPre, none))
    (hm : m.apply dPre.user = .error e) :
    applyBatch d (pre ++ m :: rest) = (dPre, some (m, e)) := by
  rw [applyBatch_append, hpre]
  simp [applyBatch, hm]

/-- A failing step freezes the downgrade batch in the same way. -/
theorem revertBatch_fail {U E : Type} (allMigs pre rest : List (Migration U E))
    (m : Migration U E) (d dPre : Db U) (e : E)
    (hpre : revertBatch allMigs d pre = (dPre, none))
    (hm : m.revert dPre.user = .error e) :
    revertBatch allMigs d (pre ++ m :: rest) = (dPre, some (m, e)) := by
  rw [revertBatch_append, hpre]
  simp [revertBatch, hm]

/-- C9: Downgrade without a target_version is an explicit no-op: it logs
and returns, leaving the state (and so the stored version) unchanged. -/
theorem C9_downgrade_no_target {U E : Type} (d : Db U)
    (migs : List (Migration U E)) :
    downgradeModel d migs none = ⟨d, [noTargetMsg], none⟩ := rfl

/-- C4: an Upgrade with an explicit target strictly below the current
stored version, and a Downgrade with a target strictly above it, both fail
with `VersionError` during planning: the state is returned unchanged (no
migration step runs, no version-store write happens). -/
theorem C4_version_error_planning {U E : Type} :
    (∀ (d : Db U) (migs : List (Migration U E)) (t : Nat), t < d.version →
      upgradeModel d migs (some t) = ⟨d, [], some .versionError⟩) ∧
    (∀ (d : Db U) (migs : List (Migration U E)) (t : Nat), d.version < t →
      downgradeModel d migs (some t) = ⟨d, [], some .versionError⟩) := by
  constructor
  · intro d migs t ht
    simp [upgradeModel, ht]
  · intro d migs t ht
    simp [downgradeModel, ht]

/-- Witness for C4: upgrading from stored version 2 down to target 1 and
downgrading from stored version 1 up to target 2 both fail with
`VersionError`, leaving the state unchanged. -/
theorem C4_version_error_planning_witness :
    (1 : Nat) < 2 ∧
    upgradeModel (⟨(), 2⟩ : Db Unit) ([] : List (Migration Unit Unit))
      (some 1) = ⟨⟨(), 2⟩, [], some .versionError⟩ ∧
    downgradeModel (⟨(), 1⟩ : Db Unit) ([] : List (Migration Unit Unit))
      (some 2) = ⟨⟨(), 1⟩, [], some .versionError⟩ :=
  ⟨Nat.one_lt_two,
    C4_version_error_planning.1 ⟨(), 2⟩ [] 1 Nat.one_lt_two,
    C4_version_error_planning.2 ⟨(), 1⟩ [] 2 Nat.one_lt_two⟩

/-- A concrete well-behaved migration over a state recording the applied
versions and the order in which reverts ran: `apply` appends the version to
the applied list, `revert` erases it and logs it. -/
def exMig (v : Nat) : Migration (List Nat × List Nat) Nat where
  version := v
  name := toString v
  apply := fun u => .ok (u.1 ++ [v], u.2)
  revert := fun u => .ok (u.1.erase v, u.2 ++ [v])

/-- A concrete migration whose `apply` raises error 42. -/
def failUpMig : Migration (List Nat × List Nat) Nat where
  version := 1
  name := "failing_migration"
  apply := fun _ => .error 42
  revert := fun u => .ok u

/-- A concrete migration whose `revert` raises error 7. -/
def failDownMig : Migration (List Nat × List Nat) Nat where
  version := 1
  name := "failing_downgrade"
  apply := fun u => .ok (u.1 ++ [1], u.2)
  revert := fun _ => .error 7

/-- C1: when a step's capability raises during Upgrade or Downgrade, the
enclosing transaction rolls back: the returned state is exactly the state
before the failed attempt (schema change and version write both undone),
the remaining migrations of the batch are never attempted (the result does
not depend on them), and the original underlying error is surfaced
unchanged. -/
theorem C1_step_failure_atomicity {U E : Type} :
    (∀ (d dPre : Db U) (migs pre rest : List (Migration U E))
        (m : Migration U E) (t : Nat) (e : E),
      d.version < t →
      toApplyList d.version t migs = pre ++ m :: rest →
      applyBatch d pre = (dPre, none) →
      m.apply dPre.user = .error e →
      upgradeModel d migs (some t) =
        ⟨dPre, [applyErrorMsg m], some (.execError e)⟩) ∧
    (∀ (d dPre : Db U) (migs pre rest : List (Migration U E))
        (m : Migration U E) (t : Nat) (e : E),
      t < d.version →
      toRevertList d.version t migs = pre ++ m :: rest →
      revertBatch migs d pre = (dPre, none) →
      m.revert dPre.user = .error e →
      downgradeModel d migs (some t) =
        ⟨dPre, [revertErrorMsg m], some (.execError e)⟩) := by
  constructor
  · intro d dPre migs pre rest m t e ht hA hpre hm
    have h1 : ¬ t < d.version := Nat.not_lt.mpr ht.le
    have h2 : ¬ t = d.version := ht.ne'
    have hfail := applyBatch_fail pre rest m d dPre e hpre hm
    cases pre with
    | nil =>
      simp only [List.nil_append] at hA hfail
      simp [upgradeModel, runUpgrade, hA, hfail, h1, h2]
    | cons p pre1 =>
      simp only [List.cons_append] at hA hfail
      simp [upgradeModel, runUpgrade, hA, hfail, h1, h2]
  · intro d dPre migs pre rest m t e ht hA hpre hm
    have h1 : ¬ d.version < t := Nat.not_lt.mpr ht.le
    have h2 : ¬ t = d.version := ht.ne
    have hfail := revertBatch_fail migs pre rest m d dPre e hpre hm
    cases pre with
    | nil =>
      simp only [List.nil_append] at hA hfail
      simp [downgradeModel, runDowngrade, hA, hfail, h1, h2]
    | cons p pre1 =>
      simp only [List.cons_append] at hA hfail
      simp [downgradeModel, runDowngrade, hA, hfail, h1, h2]

/-- Witness for C1 at concrete failing migrations in both directions. -/
theorem C1_step_failure_atomicity_witness :
    ((0 : Nat) < 1 ∧
      toApplyList 0 1 [failUpMig] = [] ++ failUpMig :: [] ∧
      failUpMig.apply ([], []) = .error 42 ∧
      upgradeModel (⟨([], []), 0⟩ : Db (List Nat × List Nat)) [failUpMig]
          (some 1) =
        ⟨⟨([], []), 0⟩, [applyErrorMsg failUpMig], some (.execError 42)⟩) ∧
    ((0 : Nat) < 1 ∧
      toRevertList 1 0 [failDownMig] = [] ++ failDownMig :: [] ∧
      failDownMig.revert ([1], []) = .error 7 ∧
      downgradeModel (⟨([1], []), 1⟩ : Db (List Nat × List Nat)) [failDownMig]
          (some 0) =
        ⟨⟨([1], []), 1⟩, [revertErrorMsg failDownMig], some (.execError 7)⟩) :=
  ⟨⟨Nat.zero_lt_one, rfl, rfl,
      C1_step_failure_atomicity.1 ⟨([], []), 0⟩ ⟨([], []), 0⟩ [failUpMig] []
        [] failUpMig 1 42 Nat.zero_lt_one rfl rfl rfl⟩,
    ⟨Nat.zero_lt_one, rfl, rfl,
      C1_step_failure_atomicity.2 ⟨([1], []), 1⟩ ⟨([1], []), 1⟩ [failDownMig]
        [] [] failDownMig 0 7 Nat.zero_lt_one rfl rfl rfl⟩⟩

/-- The version fold used by `maxVersion`/`prevVersion` dominates its
initial value. -/
theorem foldVersion_init_le {U E : Type} :
    ∀ (l : List (Migration U E)) (init : Nat),
      init ≤ l.foldl (fun acc m => max acc m.version) init := by
  intro l
  induction l with
  | nil => intro init; exact Nat.le_refl init
  | cons m rest ih =>
    intro init
    exact Nat.le_trans (Nat.le_max_left init m.version) (ih (max init m.version))

/-- The version fold dominates every member's version. -/
theorem foldVersion_mem_le {U E : Type} :
    ∀ (l : List (Migration U E)) (init : Nat) (m : Migration U E), m ∈ l →
      m.version ≤ l.foldl (fun acc m1 => max acc m1.version) init := by
  intro l
  induction l with
  | nil => intro init m hm; cases hm
  | cons m1 rest ih =>
    intro init m hm
    rcases List.mem_cons.mp hm with h | h
    · subst h
      exact Nat.le_trans (Nat.le_max_right init m.version)
        (foldVersion_init_le rest (max init m.version))
    · exact ih (max init m1.version) m h

/-- The version fold is attained: it equals the initial value or the
version of some member. -/
theorem foldVersion_attained {U E : Type} :
    ∀ (l : List (Migration U E)) (init : Nat),
      l.foldl (fun acc m => max acc m.version) init = init ∨
      ∃ m ∈ l, l.foldl (fun acc m1 => max acc m1.version) init = m.version := by
  intro l
  induction l with
  | nil => intro init; exact Or.inl rfl
  | cons m1 rest ih =>
    intro init
    have hstep : (m1 :: rest).foldl (fun acc m => max acc m.version) init =
        rest.foldl (fun acc m => max acc m.version) (max init m1.version) := rfl
    rcases ih (max init m1.version) with h | ⟨m, hm, h⟩
    · rcases Nat.le_total m1.version init with hle | hle
      · exact Or.inl (by rw [hstep, h, Nat.max_eq_left hle])
      · exact Or.inr ⟨m1, List.mem_cons_self m1 rest,
          by rw [hstep, h, Nat.max_eq_right hle]⟩
    · exact Or.inr ⟨m, List.mem_cons_of_mem m1 hm, by rw [hstep, h]⟩

/-- Every member's version is bounded by `maxVersion`. -/
theorem maxVersion_mem_le {U E : Type} (migs : List (Migration U E))
    (m : Migration U E) (hm : m ∈ migs) : m.version ≤ maxVersion migs :=
  foldVersion_mem_le migs 0 m hm

/-- `prevVersion migs v` dominates every version in `migs` that is
strictly less than `v`. -/
theorem prevVersion_is_ub {U E : Type} (migs : List (Migration U E)) (v : Nat)
    (m : Migration U E) (hm : m ∈ migs) (hlt : m.version < v) :
    m.version ≤ prevVersion migs v := by
  refine foldVersion_mem_le _ 0 m ?_
  exact List.mem_filter.mpr ⟨hm, by simpa using hlt⟩

/-- `prevVersion migs v` is 0 or is itself a version of some migration in
`migs` strictly less than `v`: together with `prevVersion_is_ub` it is the
largest such version, or 0 when none exists. -/
theorem prevVersion_attained {U E : Type} (migs : List (Migration U E))
    (v : Nat) :
    prevVersion migs v = 0 ∨
    ∃ m ∈ migs, prevVersion migs v = m.version ∧ m.version < v := by
  rcases foldVersion_attained
      (migs.filter (fun m => decide (m.version < v))) 0 with h | ⟨m, hm, h⟩
  · exact Or.inl h
  · rcases List.mem_filter.mp hm with ⟨hmem, hdec⟩
    exact Or.inr ⟨m, hmem, h, by simpa using hdec⟩

/-- A successful downgrade batch ending with migration `m` leaves the
stored version at `prevVersion allMigs m.version`. -/
theorem revertBatch_last_version {U E : Type} (allMigs : List (Migration U E)) :
    ∀ (pre : List (Migration U E)) (m : Migration U E) (d d1 : Db U),
      revertBatch allMigs d (pre ++ [m]) = (d1, none) →
      d1.version = prevVersion allMigs m.version := by
  intro pre
  induction pre with
  | nil =>
    intro m d d1 h
    simp only [List.nil_append, revertBatch] at h
    cases hm : m.revert d.user with
    | ok u =>
      simp only [hm, revertBatch] at h
      rw [← (Prod.mk.injEq _ _ _ _).mp h |>.1]
    | error e => simp [hm] at h
  | cons p pre1 ih =>
    intro m d d1 h
    simp only [List.cons_append, revertBatch] at h
    cases hm : p.revert d.user with
    | ok u =>
      simp only [hm] at h
      exact ih m ⟨u, prevVersion allMigs p.version⟩ d1 h
    | error e => simp [hm] at h

/-- C2: after each migration of a downgrade batch is reverted, the
persisted version is the largest version in the full loaded set strictly
below the reverted migration's version (0 if none): the final state of any
successful batch prefix ending in `m` stores `prevVersion allMigs m.version`,
and `prevVersion` is exactly that largest-strictly-smaller version.  At
versions 1,3,5 with current version 5, Downgrade to target 1 reverts 5
then 3 and leaves the stored version at 1. -/
theorem C2_downgrade_sets_previous_version :
    (∀ (U E : Type) (allMigs pre : List (Migration U E)) (m : Migration U E)
        (d d1 : Db U),
      revertBatch allMigs d (pre ++ [m]) = (d1, none) →
      d1.version = prevVersion allMigs m.version) ∧
    (∀ (U E : Type) (migs : List (Migration U E)) (v : Nat),
      (∀ m ∈ migs, m.version < v → m.version ≤ prevVersion migs v) ∧
      (prevVersion migs v = 0 ∨
        ∃ m ∈ migs, prevVersion migs v = m.version ∧ m.version < v)) ∧
    downgradeModel (⟨([1, 3, 5], []), 5⟩ : Db (List Nat × List Nat))
        [exMig 1, exMig 3, exMig 5] (some 1) =
      ⟨⟨([1], [5, 3]), 1⟩, [], none⟩ :=
  ⟨fun _ _ allMigs pre m d d1 h =>
      revertBatch_last_version allMigs pre m d d1 h,
    fun _ _ migs v =>
      ⟨fun m hm hlt => prevVersion_is_ub migs v m hm hlt,
        prevVersion_attained migs v⟩,
    rfl⟩

/-- Witness for C2: the batch-final-version rule applied to the concrete
gap example, reverting 5 then 3 out of versions 1, 3, 5. -/
theorem C2_downgrade_sets_previous_version_witness :
    revertBatch [exMig 1, exMig 3, exMig 5] ⟨([1, 3, 5], []), 5⟩
        ([exMig 5] ++ [exMig 3]) = (⟨([1], [5, 3]), 1⟩, none) ∧
    (⟨([1], [5, 3]), 1⟩ : Db (List Nat × List Nat)).version =
      prevVersion [exMig 1, exMig 3, exMig 5] (exMig 3).version :=
  ⟨rfl,
    C2_downgrade_sets_previous_version.1 (List Nat × List Nat) Nat
      [exMig 1, exMig 3, exMig 5] [exMig 5] (exMig 3) ⟨([1, 3, 5], []), 5⟩
      ⟨([1], [5, 3]), 1⟩ rfl⟩

/-- C7: the downgrade batch is exactly the loaded migrations with
`target < version ≤ current` — so a migration on disk whose version
exceeds the current stored version is never in the batch — processed in
descending version order; with current version 1 and a version-3 migration
on disk, Downgrade to 0 reverts only version 1's effects. -/
theorem C7_skip_future_rule :
    (∀ (U E : Type) (d : Db U) (migs : List (Migration U E)) (t : Nat)
        (m : Migration U E),
      m ∈ toRevertList d.version t migs ↔
        m ∈ migs ∧ t < m.version ∧ m.version ≤ d.version) ∧
    (∀ (U E : Type) (d : Db U) (migs : List (Migration U E)) (t : Nat),
      migs.Pairwise (fun a b => a.version ≤ b.version) →
      (toRevertList d.version t migs).Pairwise
        (fun a b => b.version ≤ a.version)) ∧
    downgradeModel (⟨([1], []), 1⟩ : Db (List Nat × List Nat))
        [exMig 1, exMig 3] (some 0) =
      ⟨⟨([], [1]), 0⟩, [], none⟩ := by
  refine ⟨?_, ?_, rfl⟩
  · intro U E d migs t m
    simp [toRevertList, List.mem_filter, and_assoc]
  · intro U E d migs t h
    rw [toRevertList, List.pairwise_reverse]
    exact h.filter _

/-- Witness for C7: descending order of the concrete batch at current
version 5 over versions 1, 3, 5 with target 1. -/
theorem C7_skip_future_rule_witness :
    (toRevertList 5 1 [exMig 1, exMig 3, exMig 5]).Pairwise
      (fun a b => b.version ≤ a.version) :=
  C7_skip_future_rule.2.1 (List Nat × List Nat) Nat ⟨([1, 3, 5], []), 5⟩
    [exMig 1, exMig 3, exMig 5] 1 (by simp [exMig])

/-- C8: an Upgrade or Downgrade whose computed batch is empty (the
requested range holds no known migration) is a logged no-op: the state —
and so the stored version — is returned unchanged even though it differs
from the requested target, and no error is raised. -/
theorem C8_empty_batch_noop :
    (∀ (U E : Type) (d : Db U) (migs : List (Migration U E)) (t : Nat),
      d.version < t → toApplyList d.version t migs = [] →
      upgradeModel d migs (some t) = ⟨d, [noApplyMsg], none⟩) ∧
    (∀ (U E : Type) (d : Db U) (migs : List (Migration U E)),
      maxVersion migs ≠ d.version →
      toApplyList d.version (maxVersion migs) migs = [] →
      upgradeModel d migs none = ⟨d, [noApplyMsg], none⟩) ∧
    (∀ (U E : Type) (d : Db U) (migs : List (Migration U E)) (t : Nat),
      t < d.version → toRevertList d.version t migs = [] →
      downgradeModel d migs (some t) = ⟨d, [noRevertMsg], none⟩) := by
  refine ⟨?_, ?_, ?_⟩
  · intro U E d migs t ht hA
    have h1 : ¬ t < d.version := Nat.not_lt.mpr ht.le
    have h2 : ¬ t = d.version := ht.ne'
    simp [upgradeModel, runUpgrade, hA, h1, h2]
  · intro U E d migs hne hA
    simp [upgradeModel, runUpgrade, hA, hne]
  · intro U E d migs t ht hA
    have h1 : ¬ d.version < t := Nat.not_lt.mpr ht.le
    have h2 : ¬ t = d.version := ht.ne
    simp [downgradeModel, runDowngrade, hA, h1, h2]

/-- Witness for C8: upgrading from version 1 to target 2 with migrations
at 1 and 3 only, and downgrading from version 5 to target 3 with a lone
migration at version 10, are both logged no-ops leaving the state intact. -/
theorem C8_empty_batch_noop_witness :
    upgradeModel (⟨([1], []), 1⟩ : Db (List Nat × List Nat))
        [exMig 1, exMig 3] (some 2) = ⟨⟨([1], []), 1⟩, [noApplyMsg], none⟩ ∧
    downgradeModel (⟨([], []), 5⟩ : Db (List Nat × List Nat)) [exMig 10]
        (some 3) = ⟨⟨([], []), 5⟩, [noRevertMsg], none⟩ :=
  ⟨C8_empty_batch_noop.1 (List Nat × List Nat) Nat ⟨([1], []), 1⟩
      [exMig 1, exMig 3] 2 Nat.one_lt_two rfl,
    C8_empty_batch_noop.2.2 (List Nat × List Nat) Nat ⟨([], []), 5⟩
      [exMig 10] 3 (by decide) rfl⟩

/-- A successful upgrade batch over an ascending list either was empty and
changed nothing, or leaves the stored version at the version of some batch
member that dominates the whole batch. -/
theorem applyBatch_ok_version {U E : Type} :
    ∀ (l : List (Migration U E)) (d d1 : Db U),
      l.Pairwise (fun a b => a.version ≤ b.version) →
      applyBatch d l = (d1, none) →
      (l = [] ∧ d1 = d) ∨
      (∃ m ∈ l, d1.version = m.version ∧
        ∀ m1 ∈ l, m1.version ≤ d1.version) := by
  intro l
  induction l with
  | nil =>
    intro d d1 _ h
    simp only [applyBatch, Prod.mk.injEq] at h
    exact Or.inl ⟨rfl, h.1.symm⟩
  | cons m rest ih =>
    intro d d1 hpw h
    have hhead := (List.pairwise_cons.mp hpw).1
    cases hm : m.apply d.user with
    | error e => simp [applyBatch, hm] at h
    | ok u =>
      simp only [applyBatch, hm] at h
      rcases ih ⟨u, m.version⟩ d1 (List.pairwise_cons.mp hpw).2 h with
        ⟨hnil, hd⟩ | ⟨mm, hmm, hv, hall⟩
      · refine Or.inr ⟨m, List.mem_cons_self m rest, by rw [hd], ?_⟩
        intro m1 hm1
        rcases List.mem_cons.mp hm1 with h1 | h1
        · subst h1; rw [hd]
        · rw [hnil] at h1; cases h1
      · refine Or.inr ⟨mm, List.mem_cons_of_mem m hmm, hv, ?_⟩
        intro m1 hm1
        rcases List.mem_cons.mp hm1 with h1 | h1
        · subst h1
          exact hv ▸ hhead mm hmm
        · exact hall m1 h1

/-- Counterexample to C5 as stated: with a lone migration at version 1, a
first Upgrade to target 2 succeeds but leaves the stored version at 1, so
the second call does not find the target equal to the current stored
version — it is a no-op through the empty-batch rule instead. -/
theorem C5_counterexample :
    (upgradeModel (⟨([], []), 0⟩ : Db (List Nat × List Nat)) [exMig 1]
        (some 2)).err = none ∧
    (upgradeModel (⟨([], []), 0⟩ : Db (List Nat × List Nat)) [exMig 1]
        (some 2)).db.version = 1 ∧
    (1 : Nat) ≠ 2 ∧
    (upgradeModel
        (upgradeModel (⟨([], []), 0⟩ : Db (List Nat × List Nat)) [exMig 1]
          (some 2)).db [exMig 1] (some 2)).log = [noApplyMsg] ∧
    noApplyMsg ≠ noUpgradeNeededMsg :=
  ⟨rfl, rfl, by decide, rfl, by decide⟩

/-- C5 (amended): Upgrade is idempotent — after a successful Upgrade to an
explicit target over an ascending migration set, repeating the call with
the same target performs no migration work: it returns the state unchanged
with no error, logging the already-at-target notice when the target equals
the stored version and the empty-batch notice otherwise. -/
theorem C5_upgrade_idempotent :
    ∀ (U E : Type) (d : Db U) (migs : List (Migration U E)) (t : Nat),
      migs.Pairwise (fun a b => a.version ≤ b.version) →
      (upgradeModel d migs (some t)).err = none →
      upgradeModel (upgradeModel d migs (some t)).db migs (some t) =
        ⟨(upgradeModel d migs (some t)).db,
          [if t = (upgradeModel d migs (some t)).db.version then
              noUpgradeNeededMsg
            else noApplyMsg],
          none⟩ := by
  intro U E d migs t hpw herr
  by_cases h1 : t < d.version
  · simp [upgradeModel, h1] at herr
  by_cases h2 : t = d.version
  · simp [upgradeModel, h1, h2]
  cases hA : toApplyList d.version t migs with
  | nil =>
    have hfirst : upgradeModel d migs (some t) = ⟨d, [noApplyMsg], none⟩ := by
      simp [upgradeModel, runUpgrade, h1, h2, hA]
    rw [hfirst]
    simp [upgradeModel, runUpgrade, h1, h2, hA]
  | cons m rest =>
    cases hB : applyBatch d (m :: rest) with
    | mk d1 oe =>
      cases oe with
      | some me =>
        have : upgradeModel d migs (some t) =
            ⟨d1, [applyErrorMsg me.1], some (.execError me.2)⟩ := by
          simp [upgradeModel, runUpgrade, h1, h2, hA, hB]
        rw [this] at herr
        simp at herr
      | none =>
        have hfirst : upgradeModel d migs (some t) = ⟨d1, [], none⟩ := by
          simp [upgradeModel, runUpgrade, h1, h2, hA, hB]
        rw [hfirst]
        have hpwA : (m :: rest).Pairwise
            (fun a b => a.version ≤ b.version) := hA ▸ hpw.filter _
        rcases applyBatch_ok_version (m :: rest) d d1 hpwA hB with
          ⟨hnil, _⟩ | ⟨mm, hmm, hv, hall⟩
        · exact absurd hnil (List.cons_ne_nil m rest)
        · have hmmA : mm ∈ toApplyList d.version t migs := hA ▸ hmm
          have hcur : d.version < mm.version ∧ mm.version ≤ t := by
            simpa using (List.mem_filter.mp hmmA).2
          have hvt : d1.version ≤ t := hv ▸ hcur.2
          have hvc : d.version < d1.version := hv ▸ hcur.1
          by_cases h4 : t = d1.version
          · simp [upgradeModel, h4]
          · have h5 : d1.version < t :=
              Nat.lt_of_le_of_ne hvt (fun hh => h4 hh.symm)
            have hempty : toApplyList d1.version t migs = [] := by
              rw [toApplyList, List.filter_eq_nil_iff]
              intro a ha hdec
              have hq : d1.version < a.version ∧ a.version ≤ t := by
                simpa using hdec
              have haA : a ∈ toApplyList d.version t migs :=
                List.mem_filter.mpr ⟨ha, by
                  simpa using ⟨Nat.lt_trans hvc hq.1, hq.2⟩⟩
              have : a.version ≤ d1.version := hall a (hA ▸ haA)
              exact absurd hq.1 (Nat.not_lt.mpr this)
            have h6 : ¬ t < d1.version := Nat.not_lt.mpr h5.le
            have hsecond : upgradeModel d1 migs (some t) =
                ⟨d1, [noApplyMsg], none⟩ := by
              simp [upgradeModel, runUpgrade, h6, h4, hempty]
            rw [hsecond]
            simp [h4]

/-- Witness for C5: upgrading twice to target 1 from a fresh database with
a single migration at version 1. -/
theorem C5_upgrade_idempotent_witness :
    upgradeModel
        (upgradeModel (⟨([], []), 0⟩ : Db (List Nat × List Nat)) [exMig 1]
          (some 1)).db [exMig 1] (some 1) =
      ⟨(upgradeModel (⟨([], []), 0⟩ : Db (List Nat × List Nat)) [exMig 1]
          (some 1)).db,
        [if 1 = (upgradeModel (⟨([], []), 0⟩ : Db (List Nat × List Nat))
            [exMig 1] (some 1)).db.version then noUpgradeNeededMsg
          else noApplyMsg],
        none⟩ :=
  C5_upgrade_idempotent (List Nat × List Nat) Nat ⟨([], []), 0⟩ [exMig 1] 1
    (by simp) rfl

/-- When each migration's `revert` undoes its `apply`, reverting a
successfully applied batch in reverse order restores the original user
state, and the last write stores the previous-version of the batch's first
(lowest-positioned) migration. -/
theorem revertBatch_undoes_applyBatch {U E : Type}
    (allMigs : List (Migration U E)) :
    ∀ (l : List (Migration U E)) (d d1 : Db U) (w : Nat),
      (∀ m ∈ l, ∀ u u1, m.apply u = .ok u1 → m.revert u1 = .ok u) →
      applyBatch d l = (d1, none) →
      revertBatch allMigs ⟨d1.user, w⟩ l.reverse =
        (⟨d.user,
          match l with
          | [] => w
          | mFirst :: _ => prevVersion allMigs mFirst.version⟩, none) := by
  intro l
  induction l with
  | nil =>
    intro d d1 w _ h
    simp only [applyBatch, Prod.mk.injEq] at h
    rw [← h.1]
    rfl
  | cons m rest ih =>
    intro d d1 w hinv h
    cases hm : m.apply d.user with
    | error e => simp [applyBatch, hm] at h
    | ok u =>
      simp only [applyBatch, hm] at h
      have hrest := ih ⟨u, m.version⟩ d1 w
        (fun m2 hm2 => hinv m2 (List.mem_cons_of_mem m hm2)) h
      have hrev : m.revert u = .ok d.user :=
        hinv m (List.mem_cons_self m rest) d.user u hm
      rw [List.reverse_cons, revertBatch_append, hrest]
      simp [revertBatch, hrev]

/-- The version fold from 0 over a list of version-0 migrations is 0. -/
theorem foldVersion_zero {U E : Type} :
    ∀ l : List (Migration U E), (∀ m ∈ l, m.version = 0) →
      l.foldl (fun acc m => max acc m.version) 0 = 0 := by
  intro l
  induction l with
  | nil => intro _; rfl
  | cons m rest ih =>
    intro h
    show rest.foldl (fun acc m1 => max acc m1.version) (max 0 m.version) = 0
    rw [h m (List.mem_cons_self m rest)]
    simpa using ih (fun m2 hm2 => h m2 (List.mem_cons_of_mem m hm2))

/-- If every known version below `v` is 0, the previous-version of `v` is 0. -/
theorem prevVersion_zero_of {U E : Type} (migs : List (Migration U E))
    (v : Nat) (h : ∀ m ∈ migs, m.version < v → m.version = 0) :
    prevVersion migs v = 0 := by
  rw [prevVersion]
  apply foldVersion_zero
  intro m hm
  rcases List.mem_filter.mp hm with ⟨hmem, hdec⟩
  exact h m hmem (by simpa using hdec)

/-- Reduction of `runDowngrade` when the batch is known, nonempty, and
succeeds. -/
theorem runDowngrade_ok {U E : Type} (d d2 : Db U)
    (migs l : List (Migration U E)) (t : Nat)
    (hl : toRevertList d.version t migs = l) (hne : l ≠ [])
    (hrb : revertBatch migs d l = (d2, none)) :
    runDowngrade d migs t = ⟨d2, [], none⟩ := by
  cases l with
  | nil => exact absurd rfl hne
  | cons a as => simp [runDowngrade, hl, hrb]

/-- C6: round trip — from a fresh database (version 0), an Upgrade to the
set's maximum that succeeds, followed by a Downgrade to target 0, restores
the initial user state (no migration side effect remains observable) and
leaves the stored version at 0, provided each migration's `revert` undoes
its `apply` and the set is ascending as Load produces it. -/
theorem C6_round_trip :
    ∀ (U E : Type) (d : Db U) (migs : List (Migration U E)),
      migs.Pairwise (fun a b => a.version ≤ b.version) →
      (∀ m ∈ migs, ∀ u u1, m.apply u = .ok u1 → m.revert u1 = .ok u) →
      d.version = 0 →
      (upgradeModel d migs none).err = none →
      (downgradeModel (upgradeModel d migs none).db migs (some 0)).db.user =
        d.user ∧
      (downgradeModel (upgradeModel d migs none).db migs
        (some 0)).db.version = 0 ∧
      (downgradeModel (upgradeModel d migs none).db migs (some 0)).err =
        none := by
  intro U E d migs hpw hinv h0 herr
  by_cases hmx : maxVersion migs = d.version
  · have hfirst : upgradeModel d migs none =
        ⟨d, [noUpgradeNeededMsg], none⟩ := by
      simp [upgradeModel, hmx]
    rw [hfirst]
    simp [downgradeModel, h0]
  · cases hA : toApplyList d.version (maxVersion migs) migs with
    | nil =>
      have hfirst : upgradeModel d migs none = ⟨d, [noApplyMsg], none⟩ := by
        simp [upgradeModel, runUpgrade, hmx, hA]
      rw [hfirst]
      simp [downgradeModel, h0]
    | cons m rest =>
      cases hB : applyBatch d (m :: rest) with
      | mk d1 oe =>
        cases oe with
        | some me =>
          have : upgradeModel d migs none =
              ⟨d1, [applyErrorMsg me.1], some (.execError me.2)⟩ := by
            simp [upgradeModel, runUpgrade, hmx, hA, hB]
          rw [this] at herr
          simp at herr
        | none =>
          have hfirst : upgradeModel d migs none = ⟨d1, [], none⟩ := by
            simp [upgradeModel, runUpgrade, hmx, hA, hB]
          rw [hfirst]
          show (downgradeModel d1 migs (some 0)).db.user = d.user ∧
            (downgradeModel d1 migs (some 0)).db.version = 0 ∧
            (downgradeModel d1 migs (some 0)).err = none
          have hpwA : (m :: rest).Pairwise
              (fun a b => a.version ≤ b.version) := hA ▸ hpw.filter _
          rcases applyBatch_ok_version (m :: rest) d d1 hpwA hB with
            ⟨hnil, _⟩ | ⟨mm, hmm, hv, hall⟩
          · exact absurd hnil (List.cons_ne_nil m rest)
          have hmmA : mm ∈ toApplyList d.version (maxVersion migs) migs :=
            hA ▸ hmm
          have hcur : d.version < mm.version ∧
              mm.version ≤ maxVersion migs := by
            simpa using (List.mem_filter.mp hmmA).2
          have hd1pos : 0 < d1.version := by
            rw [hv, ← h0]; exact hcur.1
          have hg1 : ¬ d1.version < 0 := Nat.not_lt.mpr (Nat.zero_le _)
          have hg2 : ¬ (0 : Nat) = d1.version := Nat.ne_of_lt hd1pos
          have hfeq : migs.filter
              (fun m2 => decide (0 < m2.version ∧ m2.version ≤ d1.version)) =
              migs.filter (fun m2 => decide (d.version < m2.version ∧
                m2.version ≤ maxVersion migs)) := by
            apply List.filter_congr
            intro a ha
            rw [decide_eq_decide]
            constructor
            · rintro ⟨hpos, hle⟩
              refine ⟨?_, maxVersion_mem_le migs a ha⟩
              rw [h0]; exact hpos
            · rintro ⟨hpos, hle⟩
              refine ⟨h0 ▸ hpos, ?_⟩
              have haA : a ∈ toApplyList d.version (maxVersion migs) migs :=
                List.mem_filter.mpr ⟨ha, by simpa using ⟨hpos, hle⟩⟩
              exact hall a (hA ▸ haA)
          have hA2 : migs.filter (fun m2 => decide (d.version < m2.version ∧
              m2.version ≤ maxVersion migs)) = m :: rest := hA
          have hrevlist : toRevertList d1.version 0 migs =
              (m :: rest).reverse := by
            rw [toRevertList, hfeq, hA2]
          have hsub : ∀ m2 ∈ m :: rest, m2 ∈ migs := by
            intro m2 hm2
            have : m2 ∈ toApplyList d.version (maxVersion migs) migs :=
              hA ▸ hm2
            exact (List.mem_filter.mp this).1
          have hround2 : revertBatch migs d1 (m :: rest).reverse =
              (⟨d.user, prevVersion migs m.version⟩, none) :=
            revertBatch_undoes_applyBatch migs (m :: rest) d d1 d1.version
              (fun m2 hm2 => hinv m2 (hsub m2 hm2)) hB
          have hprev : prevVersion migs m.version = 0 := by
            apply prevVersion_zero_of
            intro m2 hm2 hlt
            by_contra hne
            have hpos : 0 < m2.version := Nat.pos_of_ne_zero hne
            have hm2A : m2 ∈ toApplyList d.version (maxVersion migs) migs :=
              List.mem_filter.mpr ⟨hm2, by
                simpa using ⟨by rw [h0]; exact hpos,
                  maxVersion_mem_le migs m2 hm2⟩⟩
            have hge : m.version ≤ m2.version := by
              rcases List.mem_cons.mp (hA ▸ hm2A) with he | he
              · rw [he]
              · exact (List.pairwise_cons.mp hpwA).1 m2 he
            exact absurd hlt (Nat.not_lt.mpr hge)
          rw [hprev] at hround2
          have hrun := runDowngrade_ok d1 ⟨d.user, 0⟩ migs
            ((m :: rest).reverse) 0 hrevlist (by simp) hround2
          have hd2 : downgradeModel d1 migs (some 0) =
              ⟨⟨d.user, 0⟩, [], none⟩ := by
            simp [downgradeModel, hg1, hg2, hrun]
          rw [hd2]
          exact ⟨rfl, rfl, rfl⟩

/-- A concrete invertible migration: `apply` appends its version, `revert`
drops the last entry, so `revert` undoes `apply` exactly. -/
def invMig (v : Nat) : Migration (List Nat) Nat where
  version := v
  name := toString v
  apply := fun u => .ok (u ++ [v])
  revert := fun u => .ok u.dropLast

/-- `invMig`'s revert undoes its apply. -/
theorem invMig_inverse (v : Nat) : ∀ u u1,
    (invMig v).apply u = .ok u1 → (invMig v).revert u1 = .ok u := by
  intro u u1 h
  simp [invMig] at h ⊢
  rw [← h]
  simp

/-- Witness for C6: migrations at versions 1 and 3 on a fresh database. -/
theorem C6_round_trip_witness :
    (downgradeModel (upgradeModel (⟨[], 0⟩ : Db (List Nat))
        [invMig 1, invMig 3] none).db [invMig 1, invMig 3]
      (some 0)).db.user = [] ∧
    (downgradeModel (upgradeModel (⟨[], 0⟩ : Db (List Nat))
        [invMig 1, invMig 3] none).db [invMig 1, invMig 3]
      (some 0)).db.version = 0 ∧
    (downgradeModel (upgradeModel (⟨[], 0⟩ : Db (List Nat))
        [invMig 1, invMig 3] none).db [invMig 1, invMig 3]
      (some 0)).err = none :=
  C6_round_trip (List Nat) Nat ⟨[], 0⟩ [invMig 1, invMig 3]
    (by simp [invMig])
    (by
      intro m hm u u1 h
      rcases List.mem_cons.mp hm with he | he
      · exact he ▸ invMig_inverse 1 u u1 (he ▸ h)
      · rcases List.mem_cons.mp he with he2 | he2
        · exact he2 ▸ invMig_inverse 3 u u1 (he2 ▸ h)
        · cases he2)
    rfl rfl

/-- Value of a run of decimal digit characters. -/
def digitsToNat (cs : List Char) : Nat :=
  cs.foldl (fun acc c => 10 * acc + (c.toNat - 48)) 0

/-- Modelled from the spec: parse a directory entry name against
`<version><separator><name><extension>` — a maximal nonempty run of ASCII
digits (no sign: a leading dash makes the whole prefix non-numeric), one
single non-digit separator character, the name, and the recognized
migration-script extension `.py`.  Filenames that do not parse yield
`none` and are silently skipped. -/
def parseMigrationFilename (s : String) : Option (Nat × String) :=
  let cs := s.toList
  let digits := cs.takeWhile Char.isDigit
  match cs.dropWhile Char.isDigit with
  | [] => none
  | _sep :: rest1 =>
    if digits.isEmpty then none
    else if 3 ≤ rest1.length ∧
        rest1.drop (rest1.length - 3) = ['.', 'p', 'y'] then
      some (digitsToNat digits, String.mk (rest1.take (rest1.length - 3)))
    else none

/-- Modelled from the spec: the outcome of loading one parsed file as an
executable unit — either the unit cannot be constructed/resolved at all
(skipped silently), or it resolves exposing each of the two named
capabilities or not. -/
inductive ModuleLoad (U E : Type) where
  | unresolvable
  | resolved (upgradeFn downgradeFn : Option (U → Except E U))

/-- A directory entry: a filename plus what loading it would produce. -/
structure DirEntry (U E : Type) where
  filename : String
  load : ModuleLoad U E

/-- Modelled from the spec: `FileError` — a migration source resolves but
lacks a required capability; includes the offending path. -/
inductive LoadError where
  | fileError (path : String)
deriving DecidableEq

/-- Insert a migration into an ascending-by-version list, keeping it
ascending. -/
def insertMigration {U E : Type} (m : Migration U E) :
    List (Migration U E) → List (Migration U E)
  | [] => [m]
  | m1 :: rest =>
    if m.version < m1.version then m :: m1 :: rest
    else m1 :: insertMigration m rest

/-- Modelled from the spec: `Load` over the entries of a directory.
Unparsable filenames and unresolvable units are skipped silently; a
resolved unit missing `upgrade` or `downgrade` is a `FileError` naming the
path; accepted migrations are returned sorted ascending by version. -/
def loadEntries {U E : Type} :
    List (DirEntry U E) → Except LoadError (List (Migration U E))
  | [] => .ok []
  | en :: rest =>
    match parseMigrationFilename en.filename with
    | none => loadEntries rest
    | some (v, nm) =>
      match en.load with
      | .unresolvable => loadEntries rest
      | .resolved up? down? =>
        match up?, down? with
        | some up, some down =>
          (loadEntries rest).map
            (fun ms => insertMigration ⟨v, nm, up, down⟩ ms)
        | _, _ => .error (.fileError en.filename)

/-- Membership in an insertion. -/
theorem mem_insertMigration {U E : Type} (m x : Migration U E) :
    ∀ l : List (Migration U E), x ∈ insertMigration m l ↔ x = m ∨ x ∈ l := by
  intro l
  induction l with
  | nil => simp [insertMigration]
  | cons m1 rest ih =>
    by_cases h : m.version < m1.version
    · simp only [insertMigration, if_pos h, List.mem_cons]
    · simp only [insertMigration, if_neg h, List.mem_cons, ih]
      tauto

/-- Insertion preserves ascending order. -/
theorem insertMigration_pairwise {U E : Type} (m : Migration U E) :
    ∀ l : List (Migration U E),
      l.Pairwise (fun a b => a.version ≤ b.version) →
      (insertMigration m l).Pairwise (fun a b => a.version ≤ b.version) := by
  intro l
  induction l with
  | nil => intro _; simp [insertMigration]
  | cons m1 rest ih =>
    intro h
    rcases List.pairwise_cons.mp h with ⟨hhead, htail⟩
    by_cases hlt : m.version < m1.version
    · simp only [insertMigration, if_pos hlt]
      refine List.pairwise_cons.mpr ⟨?_, h⟩
      intro b hb
      rcases List.mem_cons.mp hb with he | he
      · rw [he]; exact hlt.le
      · exact Nat.le_trans hlt.le (hhead b he)
    · simp only [insertMigration, if_neg hlt]
      refine List.pairwise_cons.mpr ⟨?_, ih htail⟩
      intro b hb
      rcases (mem_insertMigration m b rest).mp hb with he | he
      · rw [he]; exact Nat.not_lt.mp hlt
      · exact hhead b he

/-- A successful load is ascending by version. -/
theorem loadEntries_sorted {U E : Type} :
    ∀ (entries : List (DirEntry U E)) (ms : List (Migration U E)),
      loadEntries entries = .ok ms →
      ms.Pairwise (fun a b => a.version ≤ b.version) := by
  intro entries
  induction entries with
  | nil =>
    intro ms h
    simp only [loadEntries] at h
    injection h with h1
    rw [← h1]
    exact List.Pairwise.nil
  | cons en rest ih =>
    intro ms h
    simp only [loadEntries] at h
    cases hp : parseMigrationFilename en.filename with
    | none =>
      rw [hp] at h
      exact ih ms h
    | some p =>
      obtain ⟨v, nm⟩ := p
      rw [hp] at h
      cases hl : en.load with
      | unresolvable =>
        rw [hl] at h
        exact ih ms h
      | resolved up? down? =>
        rw [hl] at h
        cases up? with
        | none =>
          cases down? with
          | none => simp at h
          | some down => simp at h
        | some up =>
          cases down? with
          | none => simp at h
          | some down =>
            cases hr : loadEntries rest with
            | error err1 => rw [hr] at h; simp [Except.map] at h
            | ok ms0 =>
              rw [hr] at h
              simp only [Except.map, Except.ok.injEq] at h
              rw [← h]
              exact insertMigration_pairwise _ ms0 (ih ms0 hr)

/-- A weakly sorted list of naturals with no duplicates is strictly
sorted. -/
theorem sorted_lt_of_sorted_le_nodup :
    ∀ l : List Nat, List.Sorted (fun a b => a ≤ b) l → l.Nodup →
      List.Sorted (fun a b => a < b) l := by
  intro l
  induction l with
  | nil => intro _ _; exact List.Pairwise.nil
  | cons a l ih =>
    intro h1 h2
    rcases List.pairwise_cons.mp h1 with ⟨ha, h1t⟩
    rcases List.pairwise_cons.mp h2 with ⟨hn, h2t⟩
    exact List.pairwise_cons.mpr
      ⟨fun b hb => Nat.lt_of_le_of_ne (ha b hb) (hn b hb), ih h1t h2t⟩

/-- The definite authoring error: the filename parses as a migration and
the unit resolves, but a required capability is missing. -/
def missingCapability {U E : Type} (en : DirEntry U E) : Prop :=
  (parseMigrationFilename en.filename).isSome = true ∧
  ∃ up? down?, en.load = .resolved up? down? ∧ (up? = none ∨ down? = none)

/-- The always-ok capability on the unit state. -/
def okUnit : Unit → Except Unit Unit := fun u => .ok u

def dupEntryA : DirEntry Unit Unit :=
  ⟨"001_a.py", .resolved (some okUnit) (some okUnit)⟩

def dupEntryB : DirEntry Unit Unit :=
  ⟨"001_b.py", .resolved (some okUnit) (some okUnit)⟩

/-- Counterexample to C3 as stated: two well-formed files sharing version
1 both load, so the returned set's versions are 1, 1 — ascending but not
strictly ascending. -/
theorem C3_counterexample :
    (loadEntries [dupEntryA, dupEntryB]).map
        (fun ms => ms.map (fun m => m.version)) = .ok [1, 1] ∧
    ¬ List.Sorted (fun a b : Nat => a < b) [1, 1] :=
  ⟨rfl, fun h =>
    absurd ((List.pairwise_cons.mp h).1 1 (List.mem_cons_self 1 []))
      (Nat.lt_irrefl 1)⟩

/-- C3 (amended): Load returns a MigrationSet ascending by version —
strictly ascending whenever the accepted files' versions are pairwise
distinct; entries whose filenames do not parse (non-integer or
negative-looking prefix, wrong extension) or whose module spec is
unresolvable are silently excluded; a file that parses and resolves but
lacks a required capability makes Load fail with `FileError` naming an
offending path; an empty directory yields the empty set, not an error. -/
theorem C3_load_contract :
    (∀ (U E : Type) (entries : List (DirEntry U E))
        (ms : List (Migration U E)),
      loadEntries entries = .ok ms →
      List.Sorted (fun a b => a ≤ b) (ms.map (fun m => m.version)) ∧
      ((ms.map (fun m => m.version)).Nodup →
        List.Sorted (fun a b => a < b) (ms.map (fun m => m.version)))) ∧
    (∀ (U E : Type) (en : DirEntry U E) (rest : List (DirEntry U E)),
      parseMigrationFilename en.filename = none ∨ en.load = .unresolvable →
      loadEntries (en :: rest) = loadEntries rest) ∧
    (∀ U E : Type, loadEntries ([] : List (DirEntry U E)) = .ok []) ∧
    (∀ (U E : Type) (entries : List (DirEntry U E)) (en : DirEntry U E),
      en ∈ entries → missingCapability en →
      ∃ en1 ∈ entries, missingCapability en1 ∧
        loadEntries entries = .error (.fileError en1.filename)) := by
  refine ⟨?_, ?_, ?_, ?_⟩
  · intro U E entries ms h
    have hs : List.Sorted (fun a b => a ≤ b)
        (ms.map (fun m => m.version)) :=
      List.pairwise_map.mpr (loadEntries_sorted entries ms h)
    exact ⟨hs, fun hnd => sorted_lt_of_sorted_le_nodup _ hs hnd⟩
  · intro U E en rest hskip
    rcases hskip with hp | hl
    · simp [loadEntries, hp]
    · cases hp : parseMigrationFilename en.filename with
      | none => simp [loadEntries, hp]
      | some p => simp [loadEntries, hp, hl]
  · intro U E
    rfl
  · intro U E entries
    induction entries with
    | nil => intro en h; cases h
    | cons en0 rest ih =>
      intro en hmem hbad
      by_cases hb0 : missingCapability en0
      · refine ⟨en0, List.mem_cons_self _ _, hb0, ?_⟩
        obtain ⟨hps, up?, down?, hl, hmiss⟩ := hb0
        cases hp : parseMigrationFilename en0.filename with
        | none => rw [hp] at hps; simp at hps
        | some p =>
          obtain ⟨v, nm⟩ := p
          rcases hmiss with hup | hdown
          · subst hup
            cases down? with
            | none => simp [loadEntries, hp, hl]
            | some down => simp [loadEntries, hp, hl]
          · subst hdown
            cases up? with
            | none => simp [loadEntries, hp, hl]
            | some up => simp [loadEntries, hp, hl]
      · have hen : en ∈ rest := by
          rcases List.mem_cons.mp hmem with he | he
          · exact absurd (he ▸ hbad) hb0
          · exact he
        obtain ⟨en1, hmem1, hbad1, herr1⟩ := ih en hen hbad
        refine ⟨en1, List.mem_cons_of_mem _ hmem1, hbad1, ?_⟩
        cases hp : parseMigrationFilename en0.filename with
        | none => simp [loadEntries, hp, herr1]
        | some p =>
          obtain ⟨v, nm⟩ := p
          cases hl : en0.load with
          | unresolvable => simp [loadEntries, hp, hl, herr1]
          | resolved up? down? =>
            cases up? with
            | none =>
              exact absurd ⟨by simp [hp], none, down?, hl, Or.inl rfl⟩ hb0
            | some up =>
              cases down? with
              | none =>
                exact absurd ⟨by simp [hp], some up, none, hl, Or.inr rfl⟩
                  hb0
              | some down => simp [loadEntries, hp, hl, herr1, Except.map]

/-- Witness for C3: a single well-formed entry loads to a sorted set. -/
theorem C3_load_contract_witness :
    List.Sorted (fun a b : Nat => a ≤ b)
      (([⟨1, "a", okUnit, okUnit⟩] : List (Migration Unit Unit)).map
        (fun m => m.version)) :=
  (C3_load_contract.1 Unit Unit [dupEntryA] [⟨1, "a", okUnit, okUnit⟩]
    rfl).1

/-- Modelled from the spec: the CLI's migration scaffolding is outside the
spec's core scope; its version scan is modelled from its documented
behavior on the directory layout — an existing file contributes a version
only when its name is a nonempty run of decimal digits immediately
followed by an underscore and ending in the `.py` extension, so negative,
decimal, or otherwise non-matching prefixes contribute nothing. -/
def createVersionOf (s : String) : Option Nat :=
  let cs := s.toList
  let digits := cs.takeWhile Char.isDigit
  match cs.dropWhile Char.isDigit with
  | '_' :: rest1 =>
    if digits.isEmpty then none
    else if 3 ≤ rest1.length ∧
        rest1.drop (rest1.length - 3) = ['.', 'p', 'y'] then
      some (digitsToNat digits)
    else none
  | _ => none

/-- Zero-pad a version number to at least three characters. -/
def padVersion (n : Nat) : String :=
  let s := toString n
  if s.length < 3 then String.mk (List.replicate (3 - s.length) '0') ++ s
  else s

/-- One greater than the highest valid version among existing files
(1 when no validly-prefixed file exists). -/
def nextVersion (files : List String) : Nat :=
  (files.filterMap createVersionOf).foldl (fun acc v => max acc v) 0 + 1

/-- A migrations directory as the scaffolder sees it: whether it exists
yet, and its entry names. -/
structure MigDir where
  present : Bool
  files : List String
deriving DecidableEq

/-- Modelled from the spec: create_migration scaffolds a new blank
migration file named `<next-version>_<name>.py` (version zero-padded to
width 3), creating the directory first when it does not exist. -/
def create_migration (dir : MigDir) (name : String) : MigDir :=
  ⟨true,
    dir.files ++ [padVersion (nextVersion dir.files) ++ "_" ++ name ++ ".py"]⟩

/-- A natural-number max fold dominates its initial value. -/
theorem foldMax_init_le :
    ∀ (l : List Nat) (init : Nat),
      init ≤ l.foldl (fun acc v => max acc v) init := by
  intro l
  induction l with
  | nil => intro init; exact Nat.le_refl init
  | cons v rest ih =>
    intro init
    exact Nat.le_trans (Nat.le_max_left init v) (ih (max init v))

/-- A natural-number max fold dominates every member. -/
theorem foldMax_mem_le :
    ∀ (l : List Nat) (init v : Nat), v ∈ l →
      v ≤ l.foldl (fun acc v1 => max acc v1) init := by
  intro l
  induction l with
  | nil => intro init v hv; cases hv
  | cons v1 rest ih =>
    intro init v hv
    rcases List.mem_cons.mp hv with h | h
    · subst h
      exact Nat.le_trans (Nat.le_max_right init v) (foldMax_init_le rest _)
    · exact ih (max init v1) v h

/-- A natural-number max fold is its initial value or some member. -/
theorem foldMax_attained :
    ∀ (l : List Nat) (init : Nat),
      l.foldl (fun acc v => max acc v) init = init ∨
      ∃ v ∈ l, l.foldl (fun acc v1 => max acc v1) init = v := by
  intro l
  induction l with
  | nil => intro init; exact Or.inl rfl
  | cons v1 rest ih =>
    intro init
    have hstep : (v1 :: rest).foldl (fun acc v => max acc v) init =
        rest.foldl (fun acc v => max acc v) (max init v1) := rfl
    rcases ih (max init v1) with h | ⟨v, hv, h⟩
    · rcases Nat.le_total v1 init with hle | hle
      · exact Or.inl (by rw [hstep, h, Nat.max_eq_left hle])
      · exact Or.inr ⟨v1, List.mem_cons_self v1 rest,
          by rw [hstep, h, Nat.max_eq_right hle]⟩
    · exact Or.inr ⟨v, List.mem_cons_of_mem v1 hv, by rw [hstep, h]⟩

/-- C10: create_migration writes a file whose version is one greater than
the highest valid integer version among existing files (1 when no
validly-prefixed file exists), ignoring files with negative, decimal, or
non-matching prefixes, handling versions beyond the 32-bit range, and
creating the directory first if it does not exist. -/
theorem C10_create_migration_next_version :
    (∀ (files : List String) (v : Nat),
      v ∈ files.filterMap createVersionOf → v < nextVersion files) ∧
    (∀ files : List String, files.filterMap createVersionOf = [] →
      nextVersion files = 1) ∧
    (∀ files : List String,
      files.filterMap createVersionOf = [] ∨
      ∃ v ∈ files.filterMap createVersionOf, nextVersion files = v + 1) ∧
    (∀ (files : List String) (s : String), createVersionOf s = none →
      nextVersion (files ++ [s]) = nextVersion files) ∧
    (createVersionOf "-01_negative.py" = none ∧
      createVersionOf "1.5_float_version.py" = none ∧
      createVersionOf "README.md" = none ∧
      createVersionOf "2147483648_large_int.py" = some 2147483648) ∧
    (∀ (dir : MigDir) (name : String),
      (create_migration dir name).present = true ∧
      (create_migration dir name).files = dir.files ++
        [padVersion (nextVersion dir.files) ++ "_" ++ name ++ ".py"]) := by
  refine ⟨?_, ?_, ?_, ?_, ⟨rfl, rfl, rfl, rfl⟩, fun dir name => ⟨rfl, rfl⟩⟩
  · intro files v hv
    exact Nat.lt_succ_of_le (foldMax_mem_le _ 0 v hv)
  · intro files h
    rw [nextVersion, h]
    rfl
  · intro files
    rcases foldMax_attained (files.filterMap createVersionOf) 0 with h | hv
    · rcases List.eq_nil_or_concat (files.filterMap createVersionOf) with
        hnil | ⟨l2, v, hcons⟩
      · exact Or.inl hnil
      · refine Or.inr ?_
        have hmemv : v ∈ files.filterMap createVersionOf := by
          rw [hcons, List.concat_eq_append]
          exact List.mem_concat_self l2 v
        refine ⟨v, hmemv, ?_⟩
        have hvle : v ≤ 0 := by
          rw [← h]
          exact foldMax_mem_le _ 0 v hmemv
        rw [nextVersion, h, Nat.le_zero.mp hvle]
    · obtain ⟨v, hmem, h⟩ := hv
      exact Or.inr ⟨v, hmem, by rw [nextVersion, h]⟩
  · intro files s h
    rw [nextVersion, nextVersion, List.filterMap_append]
    simp [List.filterMap, h]

/-- Witness for C10 on the concrete directory from the scaffolder's
documented behavior: versions 1, 2, 5 plus two non-matching names yield
next version 6; a missing directory is created and receives
`001_<name>.py`. -/
theorem C10_create_migration_next_version_witness :
    (5 : Nat) ∈ (["001_first.py", "002_second.py", "005_fifth.py",
      "invalid_file.py", "README.md"] : List String).filterMap
      createVersionOf ∧
    (5 : Nat) < nextVersion ["001_first.py", "002_second.py", "005_fifth.py",
      "invalid_file.py", "README.md"] ∧
    nextVersion ["001_first.py", "002_second.py", "005_fifth.py",
      "invalid_file.py", "README.md"] = 6 ∧
    (create_migration ⟨false, []⟩ "test_migration").present = true ∧
    (create_migration ⟨false, []⟩ "test_migration").files =
      ["001_test_migration.py"] :=
  ⟨by decide,
    C10_create_migration_next_version.1 ["001_first.py", "002_second.py",
      "005_fifth.py", "invalid_file.py", "README.md"] 5 (by decide),
    rfl,
    (C10_create_migration_next_version.2.2.2.2.2 ⟨false, []⟩
      "test_migration").1,
    rfl⟩

end Duckup
